import Mathlib

/-!
# Verification of the backrest backup driver and its repository engine

The repository's visible code is a thin driver (`src/rusticdaemon/src/main.rs`)
that initializes a rustic repository, opens it, indexes it, and records one
backup snapshot of a sanitized path list.  The engine it calls (chunker,
crypto/key layer, pack/index layer, repository façade, snapshotter) is an
external crate, so those components are modelled here from the specification's
component contracts; the driver itself is embedded directly from `main.rs`.
-/

namespace Backrest

/-! ## Basic data: bytes, hashes

Plaintext byte sequences are `List Nat`.  A chunk's identity is a
cryptographic hash of its plaintext; the hash is modelled as the identity
injection (a collision-free content address), so `Hash = Bytes`. -/

abbrev Bytes := List Nat

abbrev Hash := List Nat

/-- Modelled from the spec: chunk identity is the cryptographic hash of the
chunk's plaintext; a collision-free hash is modelled as the identity
injection. -/
def chunkHash (c : Bytes) : Hash := c

theorem chunkHash_injective : ∀ c d : Bytes, chunkHash c = chunkHash d → c = d := by
  intro c d h
  exact h

/-! ## Chunker (§4.3)

`chunk(byte stream)` splits content into content-defined variable-length
chunks.  A rolling digest over the bytes accumulated so far decides chunk
boundaries; minimum and maximum chunk sizes are enforced. -/

/-- Minimum chunk size bound enforced by the chunker. -/
def minChunk : Nat := 2

/-- Maximum chunk size bound enforced by the chunker. -/
def maxChunk : Nat := 8

/-- Modelled from the spec: the rolling, content-defined boundary rule.  The
digest is a fold over the bytes seen so far in the current chunk; a boundary
is declared when it hits a fixed residue class. -/
def rollDigest (w : Bytes) : Nat := w.foldl (fun a b => a * 31 + b) 5381

/-- The content-defined boundary test: cut when the rolling digest of the
accumulated chunk is divisible by 4. -/
def isBoundary (w : Bytes) : Bool := rollDigest w % 4 == 0

/-- Accumulate bytes from `rest` onto `acc` until the min/max-bounded
content-defined boundary rule fires; returns the finished chunk and the
remaining input. -/
def takeChunk (acc : Bytes) : Bytes → Bytes × Bytes
  | [] => (acc, [])
  | b :: bs =>
    let acc' := acc ++ [b]
    if maxChunk ≤ acc'.length then (acc', bs)
    else if minChunk ≤ acc'.length ∧ isBoundary acc' then (acc', bs)
    else takeChunk acc' bs

theorem takeChunk_append : ∀ (rest acc : Bytes),
    (takeChunk acc rest).1 ++ (takeChunk acc rest).2 = acc ++ rest := by
  intro rest
  induction rest with
  | nil => intro acc; simp [takeChunk]
  | cons b bs ih =>
    intro acc
    simp only [takeChunk]
    split
    · simp
    · split
      · simp
      · rw [ih (acc ++ [b])]
        simp

theorem takeChunk_rest_le : ∀ (bs : Bytes) (b : Nat) (acc : Bytes),
    (takeChunk acc (b :: bs)).2.length ≤ bs.length := by
  intro bs
  induction bs with
  | nil =>
    intro b acc
    simp only [takeChunk]
    split
    · simp
    · split
      · simp
      · simp [takeChunk]
  | cons b' bs' ih =>
    intro b acc
    simp only [takeChunk]
    split
    · simp
    · split
      · simp
      · exact Nat.le_trans (ih b' (acc ++ [b])) (Nat.le_succ _)

/-- Chunk a byte stream with bounded fuel (one unit per produced chunk;
`fuel ≥ length` always suffices since every chunk is nonempty). -/
def chunkAux (fuel : Nat) (xs : Bytes) : List Bytes :=
  match fuel with
  | 0 => []
  | fuel + 1 =>
    match xs with
    | [] => []
    | b :: bs =>
      let p := takeChunk [] (b :: bs)
      p.1 :: chunkAux fuel p.2

/-- Modelled from the spec: `chunk(byte stream) -> sequence of chunks`, the
content-defined chunker.  Pure function of the input bytes only (restartable
per file, no cross-file state). -/
def chunkBytes (xs : Bytes) : List Bytes := chunkAux xs.length xs

/-- The sequence of chunk hashes the chunker assigns to a byte stream. -/
def chunkHashes (xs : Bytes) : List Hash := (chunkBytes xs).map chunkHash

theorem chunkAux_flatten : ∀ (fuel : Nat) (xs : Bytes), xs.length ≤ fuel →
    (chunkAux fuel xs).flatten = xs := by
  intro fuel
  induction fuel with
  | zero =>
    intro xs h
    have : xs = [] := List.length_eq_zero.mp (Nat.le_zero.mp h)
    simp [this, chunkAux]
  | succ n ih =>
    intro xs h
    match xs with
    | [] => simp [chunkAux]
    | b :: bs =>
      simp only [chunkAux, List.flatten_cons]
      have hrest : (takeChunk [] (b :: bs)).2.length ≤ bs.length :=
        takeChunk_rest_le bs b []
      have hfuel : (takeChunk [] (b :: bs)).2.length ≤ n :=
        Nat.le_trans hrest (Nat.lt_succ_iff.mp (Nat.lt_of_lt_of_le (Nat.lt_succ_self _) h))
      rw [ih _ hfuel]
      have := takeChunk_append (b :: bs) []
      simpa using this

/-- Concatenating the chunks of a byte stream recovers the stream. -/
theorem chunkBytes_flatten (xs : Bytes) : (chunkBytes xs).flatten = xs :=
  chunkAux_flatten xs.length xs (Nat.le_refl _)

/-! ## Crypto/Key layer (§4.2)

Authenticated encryption is modelled symbolically: a ciphertext carries the
key it was sealed under and the payload; decryption checks the key (the
authentication-tag verification) and yields the payload only on a match. -/

/-- Modelled from the spec: an authenticated-encryption ciphertext.  The
`key` field models the authentication tag binding the ciphertext to the key
it was produced under. -/
structure Cipher (K : Type) (A : Type) where
  key : K
  payload : A
deriving DecidableEq, Repr

/-- Modelled from the spec: authenticated encryption of payload `x` under
key `k`. -/
def encrypt {K A : Type} (k : K) (x : A) : Cipher K A := ⟨k, x⟩

/-- Modelled from the spec: authenticated decryption.  Fails (tag mismatch)
unless the ciphertext was sealed under the same key. -/
def decrypt {K A : Type} [DecidableEq K] (k : K) (c : Cipher K A) : Option A :=
  if c.key = k then some c.payload else none

/-- A master key is a symmetric content key. -/
abbrev MasterKey := Nat

/-- A key-encryption key derived from a passphrase and a salt. -/
abbrev KEK := String × Nat

/-- Modelled from the spec: the memory-hard KDF deriving the key-encryption
key from passphrase and salt; modelled as the injective pairing. -/
def kdf (pass : String) (salt : Nat) : KEK := (pass, salt)

/-- Modelled from the spec: a stored key record — salt, KDF parameters, and
the master key encrypted under the passphrase-derived key. -/
structure KeyRecord where
  salt : Nat
  enc : Cipher KEK MasterKey
deriving DecidableEq, Repr

/-- Build the key record produced by key-layer `init`. -/
def mkKeyRecord (pass : String) (salt : Nat) (master : MasterKey) : KeyRecord :=
  ⟨salt, encrypt (kdf pass salt) master⟩

/-- Errors surfaced by the repository façade. -/
inductive RepoErr where
  | AlreadyInitialized
  | WrongPassword
  | NoConfig
deriving DecidableEq, Repr

/-- Attempt to unlock one key record with a passphrase: authenticated
decryption of the encrypted master key under the derived KEK. -/
def tryRecord (pass : String) (r : KeyRecord) : Option MasterKey :=
  decrypt (kdf pass r.salt) r.enc

/-- Modelled from the spec: `unlock(passphrase, key_records)` tries each key
record in turn; succeeds with the master key if any decrypts correctly, else
returns `WrongPassword`. -/
def unlock (pass : String) : List KeyRecord → Except RepoErr MasterKey
  | [] => .error .WrongPassword
  | r :: rs =>
    match tryRecord pass r with
    | some mk => .ok mk
    | none => unlock pass rs

/-! ## Pack/Index layer (§4.4)

Chunks are aggregated into packs; an in-memory index maps chunk hash to
`(pack id, offset, length)`.  `put` is the dedup point: an already-indexed
hash is returned without writing. -/

/-- A chunk location: pack id, offset within the pack, length. -/
abbrev Loc := Nat × Nat × Nat

/-- A pack entry: chunk hash and the encrypted chunk. -/
abbrev PackEntry := Hash × Cipher MasterKey Bytes

/-- Modelled from the spec: the pack/index layer state — master key, the
in-memory index, the currently-open pack buffer, the sealed packs already in
the backend, and the id of the open pack. -/
structure PIState where
  masterKey : MasterKey
  index : List (Hash × Loc)
  buffer : List PackEntry
  sealedPacks : List (Nat × List PackEntry)
  curPackId : Nat
deriving DecidableEq, Repr

/-- Look a chunk hash up in the in-memory index. -/
def lookupIdx (idx : List (Hash × Loc)) (h : Hash) : Option Loc :=
  (idx.find? (fun e => e.1 == h)).map (fun e => e.2)

/-- Modelled from the spec: `has(hash)` — index lookup. -/
def hasChunk (s : PIState) (h : Hash) : Bool := (lookupIdx s.index h).isSome

/-- Accumulated byte size of the open pack buffer (the next write offset). -/
def bufSize (buf : List PackEntry) : Nat :=
  (buf.map (fun e => e.2.payload.length)).sum

/-- Modelled from the spec: `put(hash, plaintext) -> (pack id, offset,
length)`.  If `has(hash)`, returns the existing location without writing;
else encrypts, appends to the open pack buffer, records the new location in
the in-memory index, and returns it. -/
def put (s : PIState) (h : Hash) (d : Bytes) : Loc × PIState :=
  match lookupIdx s.index h with
  | some loc => (loc, s)
  | none =>
    let loc : Loc := (s.curPackId, bufSize s.buffer, d.length)
    (loc, { s with
      buffer := s.buffer ++ [(h, encrypt s.masterKey d)],
      index := s.index ++ [(h, loc)] })

/-- Number of stored copies of the chunk with hash `h`, across the open pack
buffer and every sealed pack in the backend. -/
def countCopies (s : PIState) (h : Hash) : Nat :=
  s.buffer.countP (fun e => e.1 == h) +
    (s.sealedPacks.map (fun p => p.2.countP (fun e => e.1 == h))).sum

/-- Dedup invariant of the pack/index layer: a hash is stored exactly once
if indexed, and not at all otherwise. -/
def piWF (s : PIState) : Prop :=
  ∀ h : Hash, countCopies s h = if hasChunk s h then 1 else 0

/-! ## Repository façade (§4.5)

`init` fails with `AlreadyInitialized` if a config object already exists;
`open` fails with `NoConfig` or `WrongPassword`.  Failures return the
backend unchanged (no mutation before the failure point). -/

/-- Modelled from the spec: the backend objects the façade touches — the
singleton config object and the key records. -/
structure RBackend where
  config : Option Bytes
  keys : List KeyRecord
deriving DecidableEq, Repr

/-- Modelled from the spec: `init(KeyOptions, ConfigOptions)`.  Fails with
`AlreadyInitialized` if a config object already exists in the backend; else
creates the config object and a key record (salt and master key are the
caller-supplied randomness). -/
def repoInit (pass : String) (salt : Nat) (master : MasterKey) (cfg : Bytes)
    (b : RBackend) : Except RepoErr MasterKey × RBackend :=
  if b.config.isSome then (.error .AlreadyInitialized, b)
  else (.ok master,
    { b with config := some cfg, keys := b.keys ++ [mkKeyRecord pass salt master] })

/-- Modelled from the spec: `open(passphrase)`.  Fails with `NoConfig` when
no config object exists, with `WrongPassword` when no key record unlocks;
reads only, never mutates the backend. -/
def repoOpen (pass : String) (b : RBackend) : Except RepoErr MasterKey × RBackend :=
  match b.config with
  | none => (.error .NoConfig, b)
  | some _ =>
    match unlock pass b.keys with
    | .error e => (.error e, b)
    | .ok mk => (.ok mk, b)

/-! ## PathList sanitization (§3, PathList)

Paths are absolute, represented as their component lists (`/a/b` is
`["a", "b"]`).  Sanitization canonicalizes every path, drops paths that are
descendants of another path in the list, and removes duplicates, keeping
first occurrences. -/

abbrev RPath := List String

/-- Modelled from the spec: resolve a path to canonical form — drop empty
and `.` components (`//a/./b` becomes `/a/b`). -/
def canonPath (p : RPath) : RPath :=
  p.filter (fun c => !(c == "") && !(c == "."))

/-- `q` is a strict ancestor of `p`: `q ≠ p` and the components of `q` are
an initial segment of those of `p`. -/
def strictAncestor (q p : RPath) : Bool := !(q == p) && q.isPrefixOf p

/-- Remove duplicates keeping first occurrences (`seen` accumulates the
paths already emitted). -/
def dedupFirst (seen : List RPath) : List RPath → List RPath
  | [] => []
  | p :: rest =>
    if p ∈ seen then dedupFirst seen rest
    else p :: dedupFirst (p :: seen) rest

/-- Modelled from the spec: `PathList.sanitize` — canonicalize every path,
drop any path that is a descendant of another path in the list, and remove
duplicates. -/
def sanitize (ps : List RPath) : List RPath :=
  let cs := ps.map canonPath
  dedupFirst [] (cs.filter (fun p => !(cs.any (fun q => strictAncestor q p))))

/-! ## Backend write ordering (§5, §9)

A backup run's backend writes are modelled as an event trace.  The mandated
order is pack-before-index-before-snapshot: every index object and the
snapshot object reference only packs already durably written. -/

/-- A backend write event: a pack object, an index object referencing pack
ids, or a snapshot object referencing pack ids (through its root tree). -/
inductive WEvent where
  | packW (id : Nat)
  | indexW (refs : List Nat)
  | snapW (refs : List Nat)
deriving DecidableEq, Repr

/-- Walk a write trace checking that every index or snapshot object
references only packs written earlier; `written` holds the pack ids already
on the backend. -/
def refsOk (written : List Nat) : List WEvent → Bool
  | [] => true
  | .packW i :: rest => refsOk (i :: written) rest
  | .indexW rs :: rest => rs.all (fun r => r ∈ written) && refsOk written rest
  | .snapW rs :: rest => rs.all (fun r => r ∈ written) && refsOk written rest

/-- Modelled from the spec: the write trace of a backup run that seals the
packs `packIds` — all packs first, then the index objects recording them,
then the snapshot object. -/
def backupTrace (packIds : List Nat) : List WEvent :=
  packIds.map WEvent.packW ++ [WEvent.indexW packIds, WEvent.snapW packIds]

/-! ## Snapshotter (§4.6)

The backup engine walks a filesystem forest, chunks each file's contents,
stores every chunk in the content-addressed chunk store, and assembles a
content-addressed tree of file and directory entries; the snapshot's root
tree references files as lists of chunk hashes.  Restoring walks the root
tree, fetches each chunk by hash, and reassembles file contents. -/

mutual

/-- A filesystem node: a file with byte contents, or a directory. -/
inductive FSNode where
  | file (content : Bytes)
  | dir (entries : FSEntries)
deriving DecidableEq

/-- Named directory entries of a filesystem node. -/
inductive FSEntries where
  | nil
  | cons (name : String) (node : FSNode) (rest : FSEntries)
deriving DecidableEq

end

mutual

/-- A snapshot tree node: a file entry (ordered chunk-hash list) or a
directory entry list. -/
inductive TreeNode where
  | fileEntry (hashes : List Hash)
  | dirEntry (entries : TreeEntries)
deriving DecidableEq

/-- Named entries of a snapshot tree directory node. -/
inductive TreeEntries where
  | nil
  | cons (name : String) (node : TreeNode) (rest : TreeEntries)
deriving DecidableEq

end

/-- The content-addressed chunk store: association list from chunk hash to
stored chunk plaintext (the pack/index layer seen as a key/value store). -/
abbrev Store := List (Hash × Bytes)

/-- Fetch a stored chunk by hash. -/
def storeLookup (s : Store) (h : Hash) : Option Bytes :=
  (s.find? (fun e => e.1 == h)).map (fun e => e.2)

/-- Store one chunk, content-addressed and deduplicated: a no-op when the
chunk's hash is already present. -/
def storePut (s : Store) (c : Bytes) : Store :=
  if (storeLookup s (chunkHash c)).isSome then s else s ++ [(chunkHash c, c)]

/-- Store every chunk of a list. -/
def storePutAll (s : Store) (cs : List Bytes) : Store := cs.foldl storePut s

/-- Store well-formedness: every entry's key is the hash of its data. -/
def storeWF (s : Store) : Prop := ∀ e ∈ s, e.1 = chunkHash e.2

mutual

/-- Modelled from the spec: the backup walk.  A file's contents are chunked
and every chunk stored; the file entry records the ordered chunk hashes.  A
directory's entries are walked in order, threading the store. -/
def backupNode : FSNode → Store → TreeNode × Store
  | .file c, s =>
    (.fileEntry ((chunkBytes c).map chunkHash), storePutAll s (chunkBytes c))
  | .dir es, s =>
    let p := backupEntries es s
    (.dirEntry p.1, p.2)

/-- Walk a directory's entries in order, threading the chunk store. -/
def backupEntries : FSEntries → Store → TreeEntries × Store
  | .nil, s => (.nil, s)
  | .cons n fsn rest, s =>
    let p := backupNode fsn s
    let q := backupEntries rest p.2
    (.cons n p.1 q.1, q.2)

end

/-- Modelled from the spec: `backup(options, path_list, snapshot_template)`.
The sanitized path list with the filesystem contents at each path is the
forest `roots`; the returned snapshot's root tree collects their tree nodes,
and the final store holds every chunk the walk stored. -/
def backupRun (roots : FSEntries) (s : Store) : TreeNode × Store :=
  let p := backupEntries roots s
  (.dirEntry p.1, p.2)

/-- Fetch every chunk of a hash list from the store; fails if any is
missing. -/
def fetchAll (s : Store) : List Hash → Option (List Bytes)
  | [] => some []
  | h :: hs =>
    match storeLookup s h, fetchAll s hs with
    | some d, some ds => some (d :: ds)
    | _, _ => none

mutual

/-- Walk a snapshot tree, fetching every referenced chunk and reassembling
the filesystem contents; fails if a referenced chunk is missing. -/
def restoreNode (s : Store) : TreeNode → Option FSNode
  | .fileEntry hs =>
    match fetchAll s hs with
    | some ds => some (.file ds.flatten)
    | none => none
  | .dirEntry es =>
    match restoreEntries s es with
    | some fes => some (.dir fes)
    | none => none

/-- Restore every entry of a tree directory node. -/
def restoreEntries (s : Store) : TreeEntries → Option FSEntries
  | .nil => some .nil
  | .cons n t rest =>
    match restoreNode s t, restoreEntries s rest with
    | some f, some fs => some (.cons n f fs)
    | _, _ => none

end

/-! ## The driver (`src/rusticdaemon/src/main.rs`)

`main` builds the backends, constructs the repository, initializes, reopens,
indexes, builds the snapshot template and sanitized path list, runs the
backup, and prints the snapshot — each step short-circuiting with `?`.  The
embedding abstracts each fallible step as an environment field (the outcome
the external crate produces) and threads values exactly as the source does,
recording the steps invoked and the lines printed. -/

/-- Errors propagated by the driver (`Box<dyn Error>` in the source). -/
abbrev DrvErr := String

/-- The driver's steps, in source order: `to_backends`, `Repository::new`,
`init`, `open`, `to_indexed_ids`, `to_snapshot`, `PathList::from_string`,
`sanitize`, `backup`, and the final `println!`. -/
inductive DStep where
  | sBackends
  | sNew
  | sInit
  | sOpen
  | sIndexed
  | sToSnapshot
  | sFromString
  | sSanitize
  | sBackup
  | sPrintLine
deriving DecidableEq, Repr

/-- Outcomes of the external crate calls the driver makes, each a function
of the values the driver passes in (stand-in `Nat` handles for backends,
repositories in each state, path lists, and snapshots). -/
structure DriverEnv where
  backendsRes : Except DrvErr Nat
  newRes : Nat → Except DrvErr Nat
  initRes : Nat → Except DrvErr Nat
  openRes : Nat → Except DrvErr Nat
  indexedRes : Nat → Except DrvErr Nat
  toSnapshotRes : Except DrvErr Nat
  fromStringRes : Except DrvErr Nat
  sanitizeRes : Nat → Except DrvErr Nat
  backupRes : Nat → Nat → Nat → Except DrvErr Nat

/-- The `main` function of `src/rusticdaemon/src/main.rs`: result, printed
lines, and the trace of steps invoked, with the source's `?` chain embedded
as nested short-circuits in source order. -/
def driverMain (env : DriverEnv) : Except DrvErr Nat × List String × List DStep :=
  match env.backendsRes with
  | .error e => (.error e, [], [.sBackends])
  | .ok backends =>
    match env.newRes backends with
    | .error e => (.error e, [], [.sBackends, .sNew])
    | .ok repo0 =>
      match env.initRes repo0 with
      | .error e => (.error e, [], [.sBackends, .sNew, .sInit])
      | .ok repoInit0 =>
        match env.openRes repoInit0 with
        | .error e => (.error e, [], [.sBackends, .sNew, .sInit, .sOpen])
        | .ok repoOpen0 =>
          match env.indexedRes repoOpen0 with
          | .error e => (.error e, [], [.sBackends, .sNew, .sInit, .sOpen, .sIndexed])
          | .ok repoIdx =>
            match env.toSnapshotRes with
            | .error e => (.error e, [],
                [.sBackends, .sNew, .sInit, .sOpen, .sIndexed, .sToSnapshot])
            | .ok snapTemplate =>
              match env.fromStringRes with
              | .error e => (.error e, [],
                  [.sBackends, .sNew, .sInit, .sOpen, .sIndexed, .sToSnapshot,
                   .sFromString])
              | .ok rawList =>
                match env.sanitizeRes rawList with
                | .error e => (.error e, [],
                    [.sBackends, .sNew, .sInit, .sOpen, .sIndexed, .sToSnapshot,
                     .sFromString, .sSanitize])
                | .ok pathList =>
                  match env.backupRes repoIdx pathList snapTemplate with
                  | .error e => (.error e, [],
                      [.sBackends, .sNew, .sInit, .sOpen, .sIndexed, .sToSnapshot,
                       .sFromString, .sSanitize, .sBackup])
                  | .ok snap =>
                    (.ok snap, ["Snapshot: " ++ toString snap],
                      [.sBackends, .sNew, .sInit, .sOpen, .sIndexed, .sToSnapshot,
                       .sFromString, .sSanitize, .sBackup, .sPrintLine])

/-- All of the driver's fallible steps succeed (with values threaded as the
driver threads them). -/
def stepsOk (env : DriverEnv) : Bool :=
  match env.backendsRes with
  | .error _ => false
  | .ok backends =>
    match env.newRes backends with
    | .error _ => false
    | .ok repo0 =>
      match env.initRes repo0 with
      | .error _ => false
      | .ok repoInit0 =>
        match env.openRes repoInit0 with
        | .error _ => false
        | .ok repoOpen0 =>
          match env.indexedRes repoOpen0 with
          | .error _ => false
          | .ok repoIdx =>
            match env.toSnapshotRes with
            | .error _ => false
            | .ok snapTemplate =>
              match env.fromStringRes with
              | .error _ => false
              | .ok rawList =>
                match env.sanitizeRes rawList with
                | .error _ => false
                | .ok pathList =>
                  match env.backupRes repoIdx pathList snapTemplate with
                  | .error _ => false
                  | .ok _ => true

/-- The complete step trace of a fully successful driver run. -/
def fullTrace : List DStep :=
  [.sBackends, .sNew, .sInit, .sOpen, .sIndexed, .sToSnapshot, .sFromString,
   .sSanitize, .sBackup, .sPrintLine]

/-! ## Theorems -/

/-- **C3.** For every plaintext byte sequence, chunking it and then chunking
the identical byte sequence again (two runs of the chunker on equal input)
yields an identical sequence of chunk hashes: the chunker is a pure function
of the input bytes, with no cross-run state. -/
theorem chunking_deterministic (d1 d2 : Bytes) (h : d1 = d2) :
    chunkHashes d1 = chunkHashes d2 := by
  rw [h]

/-- Witness for `chunking_deterministic` at a concrete byte sequence. -/
theorem chunking_deterministic_witness :
    chunkHashes [3, 1, 4, 1, 5, 9, 2, 6] = chunkHashes [3, 1, 4, 1, 5, 9, 2, 6] :=
  chunking_deterministic [3, 1, 4, 1, 5, 9, 2, 6] [3, 1, 4, 1, 5, 9, 2, 6] rfl

/-- **C4.** For every valid master key `k` and every payload `x`,
`decrypt (encrypt x) = x`: authenticated decryption with the same master key
is a left inverse of encryption. -/
theorem decrypt_encrypt_roundtrip (k : MasterKey) (x : Bytes) :
    decrypt k (encrypt k x) = some x := by
  simp [decrypt, encrypt]

/-- **C7.** `init` fails with `AlreadyInitialized` whenever a config object
already exists in the backend, and both `init` and `open` failures abort
before any mutation: on every error the backend is returned unchanged. -/
theorem init_already_initialized (pass : String) (salt : Nat) (master : MasterKey)
    (cfg : Bytes) (b : RBackend) :
    (b.config.isSome → repoInit pass salt master cfg b = (.error .AlreadyInitialized, b)) ∧
    (∀ e, (repoInit pass salt master cfg b).1 = .error e →
      (repoInit pass salt master cfg b).2 = b) ∧
    (∀ e, (repoOpen pass b).1 = .error e → (repoOpen pass b).2 = b) := by
  refine ⟨fun hcfg => ?_, fun e he => ?_, fun e he => ?_⟩
  · simp [repoInit, hcfg]
  · by_cases hc : b.config.isSome
    · simp [repoInit, hc]
    · simp [repoInit, hc] at he
  · unfold repoOpen at he ⊢
    cases hc : b.config with
    | none => rfl
    | some cfgBytes =>
      simp only [hc] at he ⊢
      cases hu : unlock pass b.keys with
      | error e2 => rfl
      | ok mk => simp [hu] at he

/-- Witness for `init_already_initialized`: a backend whose config object
exists, where `init` indeed fails with `AlreadyInitialized` and leaves the
backend untouched, and `open` with a wrong passphrase also leaves it
untouched. -/
theorem init_already_initialized_witness :
    repoInit "test" 7 42 [1] ⟨some [0], []⟩ = (.error .AlreadyInitialized, ⟨some [0], []⟩) ∧
    (repoOpen "test" (⟨some [0], []⟩ : RBackend)).2 = ⟨some [0], []⟩ := by
  refine ⟨(init_already_initialized "test" 7 42 [1] ⟨some [0], []⟩).1 (by decide), ?_⟩
  exact (init_already_initialized "test" 7 42 [1] ⟨some [0], []⟩).2.2
    .WrongPassword (by rfl)

/-- **C5.** `unlock` returns the master key if and only if some key record
decrypts correctly under the passphrase (the authenticated-decryption check
passes); any returned key comes from a record that decrypted to it; every
failure is `WrongPassword`; and with a wrong passphrase (no record
decrypts) it returns `WrongPassword` — in particular it never returns a
key at all, so never one that decrypts existing packs. -/
theorem unlock_spec (pass : String) (recs : List KeyRecord) :
    ((∃ mk, unlock pass recs = .ok mk) ↔ ∃ r ∈ recs, (tryRecord pass r).isSome) ∧
    (∀ mk, unlock pass recs = .ok mk → ∃ r ∈ recs, tryRecord pass r = some mk) ∧
    (∀ e, unlock pass recs = .error e → e = .WrongPassword) ∧
    ((∀ r ∈ recs, tryRecord pass r = none) →
      unlock pass recs = .error .WrongPassword) := by
  have main : ((∃ mk, unlock pass recs = .ok mk) ↔
        ∃ r ∈ recs, (tryRecord pass r).isSome) ∧
      (∀ mk, unlock pass recs = .ok mk → ∃ r ∈ recs, tryRecord pass r = some mk) ∧
      (∀ e, unlock pass recs = .error e → e = .WrongPassword) := by
    induction recs with
    | nil => simp [unlock]
    | cons r rs ih =>
      cases htr : tryRecord pass r with
      | some mk => simp [unlock, htr]
      | none =>
        refine ⟨?_, ?_, ?_⟩
        · rw [show unlock pass (r :: rs) = unlock pass rs by simp [unlock, htr]]
          rw [ih.1]
          constructor
          · rintro ⟨r2, hr2, hs⟩
            exact ⟨r2, List.mem_cons_of_mem r hr2, hs⟩
          · rintro ⟨r2, hr2, hs⟩
            rcases List.mem_cons.mp hr2 with heq | hmem
            · subst heq
              rw [htr] at hs
              simp at hs
            · exact ⟨r2, hmem, hs⟩
        · intro mk hmk
          rw [show unlock pass (r :: rs) = unlock pass rs by simp [unlock, htr]] at hmk
          obtain ⟨r2, hr2, hs⟩ := ih.2.1 mk hmk
          exact ⟨r2, List.mem_cons_of_mem r hr2, hs⟩
        · intro e he
          rw [show unlock pass (r :: rs) = unlock pass rs by simp [unlock, htr]] at he
          exact ih.2.2 e he
  refine ⟨main.1, main.2.1, main.2.2, fun hall => ?_⟩
  cases hu : unlock pass recs with
  | ok mk =>
    obtain ⟨r2, hr2, hs⟩ := main.1.mp ⟨mk, hu⟩
    rw [hall r2 hr2] at hs
    simp at hs
  | error e =>
    rw [main.2.2 e hu]

/-- Witness for `unlock_spec`: two key records, one sealed under the
passphrase "test"; `unlock` with "test" succeeds with the master key of the
matching record, and `unlock` with "wrong" fails with `WrongPassword`. -/
theorem unlock_spec_witness :
    unlock "test" [mkKeyRecord "other" 1 10, mkKeyRecord "test" 2 42] = .ok 42 ∧
    unlock "wrong" [mkKeyRecord "other" 1 10, mkKeyRecord "test" 2 42] =
      .error .WrongPassword := by
  constructor
  · rfl
  · exact (unlock_spec "wrong" [mkKeyRecord "other" 1 10, mkKeyRecord "test" 2 42]).2.2.2
      (by decide)

theorem lookupIdx_none_iff (idx : List (Hash × Loc)) (h : Hash) :
    lookupIdx idx h = none ↔ idx.find? (fun e => e.1 == h) = none := by
  simp [lookupIdx]

/-- **C2.** `put` is idempotent: from any state satisfying the pack/index
dedup invariant, calling `put h d` twice yields the same
`(pack id, offset, length)` both times, the second call changes nothing,
and afterwards exactly one stored copy of the chunk exists across the open
buffer and the sealed packs; in particular, when `has h` already holds,
`put` returns the existing location without writing anything. -/
theorem put_hit (s : PIState) (h : Hash) (d : Bytes) (loc : Loc)
    (hl : lookupIdx s.index h = some loc) : put s h d = (loc, s) := by
  simp [put, hl]

theorem put_idempotent (s : PIState) (h : Hash) (d : Bytes) (hwf : piWF s) :
    (put (put s h d).2 h d).1 = (put s h d).1 ∧
    (put (put s h d).2 h d).2 = (put s h d).2 ∧
    countCopies (put s h d).2 h = 1 ∧
    (∀ loc, lookupIdx s.index h = some loc → put s h d = (loc, s)) := by
  obtain ⟨mk, idx, buf, sealed, pid⟩ := s
  cases hl : lookupIdx idx h with
  | some loc =>
    have h1 : put ⟨mk, idx, buf, sealed, pid⟩ h d = (loc, ⟨mk, idx, buf, sealed, pid⟩) :=
      put_hit _ h d loc hl
    have hcount : countCopies ⟨mk, idx, buf, sealed, pid⟩ h = 1 := by
      have := hwf h
      rwa [if_pos (by simp [hasChunk, hl])] at this
    rw [h1]
    refine ⟨by rw [h1], by rw [h1], hcount, fun loc2 hl2 => ?_⟩
    injection hl2 with he
    rw [he]
  | none =>
    have hfind : idx.find? (fun e => e.1 == h) = none :=
      (lookupIdx_none_iff idx h).mp hl
    have h1 : put ⟨mk, idx, buf, sealed, pid⟩ h d =
        ((pid, bufSize buf, d.length),
         ⟨mk, idx ++ [(h, (pid, bufSize buf, d.length))],
          buf ++ [(h, encrypt mk d)], sealed, pid⟩) := by
      simp [put, hl]
    have hl1 : lookupIdx (idx ++ [(h, (pid, bufSize buf, d.length))]) h =
        some (pid, bufSize buf, d.length) := by
      simp [lookupIdx, List.find?_append, hfind]
    have h2 : put (⟨mk, idx ++ [(h, (pid, bufSize buf, d.length))],
          buf ++ [(h, encrypt mk d)], sealed, pid⟩ : PIState) h d =
        ((pid, bufSize buf, d.length),
         ⟨mk, idx ++ [(h, (pid, bufSize buf, d.length))],
          buf ++ [(h, encrypt mk d)], sealed, pid⟩) :=
      put_hit _ h d _ hl1
    rw [h1]
    refine ⟨by rw [h2], by rw [h2], ?_, fun loc2 hl2 => ?_⟩
    · have hzero : countCopies ⟨mk, idx, buf, sealed, pid⟩ h = 0 := by
        have := hwf h
        rwa [if_neg (by simp [hasChunk, hl])] at this
      simp only [countCopies, List.countP_append] at hzero ⊢
      simp only [List.countP_cons, List.countP_nil, beq_self_eq_true, if_pos] at hzero ⊢
      simp only [show ((h, encrypt mk d).1 == h) = true by simp] at *
      omega
    · exact Option.noConfusion hl2

/-- Witness for `put_idempotent`: from the empty pack/index state, `put` of
one chunk twice returns the same location both times, leaves the state of
the second call unchanged, and stores exactly one copy. -/
theorem put_idempotent_witness :
    (put (put (⟨0, [], [], [], 0⟩ : PIState) [7] [7, 7]).2 [7] [7, 7]).1 =
      (put (⟨0, [], [], [], 0⟩ : PIState) [7] [7, 7]).1 ∧
    (put (put (⟨0, [], [], [], 0⟩ : PIState) [7] [7, 7]).2 [7] [7, 7]).2 =
      (put (⟨0, [], [], [], 0⟩ : PIState) [7] [7, 7]).2 ∧
    countCopies (put (⟨0, [], [], [], 0⟩ : PIState) [7] [7, 7]).2 [7] = 1 ∧
    (∀ loc, lookupIdx (PIState.index ⟨0, [], [], [], 0⟩) [7] = some loc →
      put (⟨0, [], [], [], 0⟩ : PIState) [7] [7, 7] = (loc, ⟨0, [], [], [], 0⟩)) :=
  put_idempotent ⟨0, [], [], [], 0⟩ [7] [7, 7]
    (by intro h2; simp [countCopies, hasChunk, lookupIdx])

theorem refsOk_append_left : ∀ (t1 t2 : List WEvent) (w : List Nat),
    refsOk w (t1 ++ t2) = true → refsOk w t1 = true := by
  intro t1
  induction t1 with
  | nil => intro t2 w _; rfl
  | cons ev rest ih =>
    intro t2 w hok
    cases ev with
    | packW i =>
      simp only [List.cons_append, refsOk] at hok ⊢
      exact ih t2 (i :: w) hok
    | indexW rs =>
      simp only [List.cons_append, refsOk, Bool.and_eq_true] at hok ⊢
      exact ⟨hok.1, ih t2 w hok.2⟩
    | snapW rs =>
      simp only [List.cons_append, refsOk, Bool.and_eq_true] at hok ⊢
      exact ⟨hok.1, ih t2 w hok.2⟩

theorem refsOk_packsSegment : ∀ (ids : List Nat) (w : List Nat) (rest : List WEvent),
    refsOk w (ids.map WEvent.packW ++ rest) = refsOk (ids.reverse ++ w) rest := by
  intro ids
  induction ids with
  | nil => intro w rest; simp
  | cons i is ih =>
    intro w rest
    simp only [List.map_cons, List.cons_append, refsOk]
    rw [show (List.map WEvent.packW is).append rest = List.map WEvent.packW is ++ rest
        from rfl]
    rw [ih (i :: w) rest]
    simp [List.reverse_cons, List.append_assoc]

/-- **C8.** In every reachable backend state of a backup run — every prefix
of the run's write trace, so in particular runs aborted mid-way — no index
object and no snapshot object has been written that references a pack not
written earlier in the trace: the pack-before-index-before-snapshot order
holds. -/
theorem backup_write_order (packIds : List Nat) (t : List WEvent)
    (hpre : ∃ r, t ++ r = backupTrace packIds) :
    refsOk [] t = true := by
  obtain ⟨r, hr⟩ := hpre
  have hfull : refsOk [] (backupTrace packIds) = true := by
    unfold backupTrace
    rw [refsOk_packsSegment packIds [] _]
    simp only [refsOk, List.append_nil, Bool.and_eq_true, List.all_eq_true]
    refine ⟨fun x hx => ?_, fun x hx => ?_, trivial⟩ <;>
      simpa [List.mem_reverse] using hx
  rw [← hr] at hfull
  exact refsOk_append_left t r [] hfull

/-- Witness for `backup_write_order`: an aborted run that wrote only the
first of two packs (a strict prefix of the full trace) is still in a valid
state. -/
theorem backup_write_order_witness :
    refsOk [] [WEvent.packW 1] = true :=
  backup_write_order [1, 2] [WEvent.packW 1]
    ⟨[WEvent.packW 2, WEvent.indexW [1, 2], WEvent.snapW [1, 2]], rfl⟩

theorem mem_dedupFirst : ∀ (l seen : List RPath) (x : RPath),
    x ∈ dedupFirst seen l → x ∈ l := by
  intro l
  induction l with
  | nil => intro seen x hx; simp [dedupFirst] at hx
  | cons p rest ih =>
    intro seen x hx
    by_cases hp : p ∈ seen
    · simp only [dedupFirst, if_pos hp] at hx
      exact List.mem_cons_of_mem p (ih seen x hx)
    · simp only [dedupFirst, if_neg hp, List.mem_cons] at hx
      rcases hx with heq | hmem
      · exact heq ▸ List.mem_cons_self x rest
      · exact List.mem_cons_of_mem p (ih (p :: seen) x hmem)

theorem dedupFirst_not_mem_seen : ∀ (l seen : List RPath) (x : RPath),
    x ∈ dedupFirst seen l → x ∉ seen := by
  intro l
  induction l with
  | nil => intro seen x hx; simp [dedupFirst] at hx
  | cons p rest ih =>
    intro seen x hx
    by_cases hp : p ∈ seen
    · simp only [dedupFirst, if_pos hp] at hx
      exact ih seen x hx
    · simp only [dedupFirst, if_neg hp, List.mem_cons] at hx
      rcases hx with heq | hmem
      · exact heq ▸ hp
      · intro hseen
        exact ih (p :: seen) x hmem (List.mem_cons_of_mem p hseen)

theorem dedupFirst_nodup : ∀ (l seen : List RPath), (dedupFirst seen l).Nodup := by
  intro l
  induction l with
  | nil => intro seen; simp [dedupFirst]
  | cons p rest ih =>
    intro seen
    by_cases hp : p ∈ seen
    · simp only [dedupFirst, if_pos hp]
      exact ih seen
    · simp only [dedupFirst, if_neg hp]
      refine List.nodup_cons.mpr ⟨fun hmem => ?_, ih (p :: seen)⟩
      exact dedupFirst_not_mem_seen rest (p :: seen) p hmem (List.mem_cons_self p seen)

theorem mem_sanitize_mem_canon (ps : List RPath) (p : RPath) (hp : p ∈ sanitize ps) :
    p ∈ ps.map canonPath ∧
      (ps.map canonPath).any (fun q => strictAncestor q p) = false := by
  unfold sanitize at hp
  have hf := mem_dedupFirst _ [] p hp
  exact ⟨List.mem_of_mem_filter hf, by
    have := List.of_mem_filter hf
    simpa using this⟩

/-- **C6.** Sanitizing a path list canonicalizes every surviving path,
removes duplicates, and removes paths that are descendants of another path
in the list: the result is duplicate-free, no surviving path has an
ancestor in the result, every surviving path is in canonical form — and in
particular sanitizing `/a`, `/a/b`, `/c`, `/a` yields exactly
`{/a, /c}`. -/
theorem sanitize_spec :
    (∀ ps p, p ∈ sanitize ps → canonPath p = p) ∧
    (∀ ps p q, p ∈ sanitize ps → q ∈ sanitize ps → strictAncestor q p = false) ∧
    (∀ ps, (sanitize ps).Nodup) ∧
    sanitize [["a"], ["a", "b"], ["c"], ["a"]] = [["a"], ["c"]] := by
  refine ⟨fun ps p hp => ?_, fun ps p q hp hq => ?_, fun ps => dedupFirst_nodup _ _,rfl⟩
  · obtain ⟨hmem, -⟩ := mem_sanitize_mem_canon ps p hp
    obtain ⟨p0, -, rfl⟩ := List.mem_map.mp hmem
    unfold canonPath
    exact List.filter_eq_self.mpr fun c hc => List.of_mem_filter (p := fun c => !(c == "") && !(c == ".")) hc
  · obtain ⟨-, hnone⟩ := mem_sanitize_mem_canon ps p hp
    obtain ⟨hqmem, -⟩ := mem_sanitize_mem_canon ps q hq
    rw [List.any_eq_false] at hnone
    simpa using hnone q hqmem

/-- Witness for `sanitize_spec` on the concrete list `/a`, `/a/b`, `/c`,
`/a`: the survivor `/a` is canonical, `/c` is not an ancestor of `/a`, and
the result is duplicate-free. -/
theorem sanitize_spec_witness :
    canonPath ["a"] = ["a"] ∧
    strictAncestor ["c"] ["a"] = false ∧
    (sanitize [["a"], ["a", "b"], ["c"], ["a"]]).Nodup :=
  ⟨sanitize_spec.1 [["a"], ["a", "b"], ["c"], ["a"]] ["a"] (by decide),
   sanitize_spec.2.1 [["a"], ["a", "b"], ["c"], ["a"]] ["a"] ["c"] (by decide) (by decide),
   sanitize_spec.2.2.1 [["a"], ["a", "b"], ["c"], ["a"]]⟩

/-- **C9.** The driver's `main` returns `Ok` exactly when every step
(backend construction, `new`, `init`, `open`, `to_indexed_ids`, snapshot
template, path-list construction, `sanitize`, `backup`) succeeds; on
success it prints the `Snapshot: ...` line exactly once (the output is
exactly that one line); if any step fails, `main` propagates that step's
error and prints nothing. -/
theorem driver_main_ok_iff (env : DriverEnv) :
    ((driverMain env).1.isOk = stepsOk env) ∧
    (stepsOk env = true → ∃ snap, driverMain env =
      (.ok snap, ["Snapshot: " ++ toString snap], fullTrace)) ∧
    (∀ e, (driverMain env).1 = .error e → (driverMain env).2.1 = []) := by
  cases h1 : env.backendsRes with
  | error e1 => simp [driverMain, stepsOk, Except.isOk, Except.toBool, h1]
  | ok backends =>
  cases h2 : env.newRes backends with
  | error e2 => simp [driverMain, stepsOk, Except.isOk, Except.toBool, h1, h2]
  | ok repo0 =>
  cases h3 : env.initRes repo0 with
  | error e3 => simp [driverMain, stepsOk, Except.isOk, Except.toBool, h1, h2, h3]
  | ok repoInit0 =>
  cases h4 : env.openRes repoInit0 with
  | error e4 => simp [driverMain, stepsOk, Except.isOk, Except.toBool, h1, h2, h3, h4]
  | ok repoOpen0 =>
  cases h5 : env.indexedRes repoOpen0 with
  | error e5 => simp [driverMain, stepsOk, Except.isOk, Except.toBool, h1, h2, h3, h4, h5]
  | ok repoIdx =>
  cases h6 : env.toSnapshotRes with
  | error e6 => simp [driverMain, stepsOk, Except.isOk, Except.toBool, h1, h2, h3, h4, h5, h6]
  | ok snapTemplate =>
  cases h7 : env.fromStringRes with
  | error e7 => simp [driverMain, stepsOk, Except.isOk, Except.toBool, h1, h2, h3, h4, h5, h6, h7]
  | ok rawList =>
  cases h8 : env.sanitizeRes rawList with
  | error e8 => simp [driverMain, stepsOk, Except.isOk, Except.toBool, h1, h2, h3, h4, h5, h6, h7, h8]
  | ok pathList =>
  cases h9 : env.backupRes repoIdx pathList snapTemplate with
  | error e9 => simp [driverMain, stepsOk, Except.isOk, Except.toBool, h1, h2, h3, h4, h5, h6, h7, h8, h9]
  | ok snap =>
    simp [driverMain, stepsOk, fullTrace, Except.isOk, Except.toBool,
      h1, h2, h3, h4, h5, h6, h7, h8, h9]

/-- Witness for `driver_main_ok_iff`: an environment in which every step
succeeds; the driver prints exactly the one snapshot line. -/
theorem driver_main_ok_iff_witness :
    ∃ snap, driverMain
      ⟨.ok 1, fun _ => .ok 2, fun _ => .ok 3, fun _ => .ok 4, fun _ => .ok 5,
       .ok 6, .ok 7, fun _ => .ok 8, fun _ _ _ => .ok 9⟩ =
      (.ok snap, ["Snapshot: " ++ toString snap], fullTrace) :=
  (driver_main_ok_iff
    ⟨.ok 1, fun _ => .ok 2, fun _ => .ok 3, fun _ => .ok 4, fun _ => .ok 5,
     .ok 6, .ok 7, fun _ => .ok 8, fun _ _ _ => .ok 9⟩).2.1 (by rfl)

/-- **C10.** The driver invokes the operations in the strict source order
(`to_backends`, `new`, `init`, `open`, `to_indexed_ids`, snapshot template,
path-list construction, `sanitize`, `backup`): its step trace is always an
initial segment of that order, and `backup` is reached only when
`to_indexed_ids` succeeded (the repository is in the Indexed state) and
`sanitize` succeeded on the path list passed to it. -/
theorem driver_step_order (env : DriverEnv) :
    (∃ r, (driverMain env).2.2 ++ r = fullTrace) ∧
    (DStep.sBackup ∈ (driverMain env).2.2 →
      ∃ backends repo0 repoInit0 repoOpen0 repoIdx rawList pathList,
        env.backendsRes = .ok backends ∧
        env.newRes backends = .ok repo0 ∧
        env.initRes repo0 = .ok repoInit0 ∧
        env.openRes repoInit0 = .ok repoOpen0 ∧
        env.indexedRes repoOpen0 = .ok repoIdx ∧
        env.fromStringRes = .ok rawList ∧
        env.sanitizeRes rawList = .ok pathList) := by
  cases h1 : env.backendsRes with
  | error e1 => exact ⟨⟨fullTrace.drop 1, by simp [driverMain, h1, fullTrace]⟩,
      by simp [driverMain, h1]⟩
  | ok backends =>
  cases h2 : env.newRes backends with
  | error e2 => exact ⟨⟨fullTrace.drop 2, by simp [driverMain, h1, h2, fullTrace]⟩,
      by simp [driverMain, h1, h2]⟩
  | ok repo0 =>
  cases h3 : env.initRes repo0 with
  | error e3 => exact ⟨⟨fullTrace.drop 3, by simp [driverMain, h1, h2, h3, fullTrace]⟩,
      by simp [driverMain, h1, h2, h3]⟩
  | ok repoInit0 =>
  cases h4 : env.openRes repoInit0 with
  | error e4 => exact ⟨⟨fullTrace.drop 4,
      by simp [driverMain, h1, h2, h3, h4, fullTrace]⟩,
      by simp [driverMain, h1, h2, h3, h4]⟩
  | ok repoOpen0 =>
  cases h5 : env.indexedRes repoOpen0 with
  | error e5 => exact ⟨⟨fullTrace.drop 5,
      by simp [driverMain, h1, h2, h3, h4, h5, fullTrace]⟩,
      by simp [driverMain, h1, h2, h3, h4, h5]⟩
  | ok repoIdx =>
  cases h6 : env.toSnapshotRes with
  | error e6 => exact ⟨⟨fullTrace.drop 6,
      by simp [driverMain, h1, h2, h3, h4, h5, h6, fullTrace]⟩,
      by simp [driverMain, h1, h2, h3, h4, h5, h6]⟩
  | ok snapTemplate =>
  cases h7 : env.fromStringRes with
  | error e7 => exact ⟨⟨fullTrace.drop 7,
      by simp [driverMain, h1, h2, h3, h4, h5, h6, h7, fullTrace]⟩,
      by simp [driverMain, h1, h2, h3, h4, h5, h6, h7]⟩
  | ok rawList =>
  cases h8 : env.sanitizeRes rawList with
  | error e8 => exact ⟨⟨fullTrace.drop 8,
      by simp [driverMain, h1, h2, h3, h4, h5, h6, h7, h8, fullTrace]⟩,
      by simp [driverMain, h1, h2, h3, h4, h5, h6, h7, h8]⟩
  | ok pathList =>
  cases h9 : env.backupRes repoIdx pathList snapTemplate with
  | error e9 =>
    refine ⟨⟨fullTrace.drop 9,
      by simp [driverMain, h1, h2, h3, h4, h5, h6, h7, h8, h9, fullTrace]⟩, fun _ => ?_⟩
    exact ⟨backends, repo0, repoInit0, repoOpen0, repoIdx, rawList, pathList,
      rfl, h2, h3, h4, h5, rfl, h8⟩
  | ok snap =>
    refine ⟨⟨[],
      by simp [driverMain, h1, h2, h3, h4, h5, h6, h7, h8, h9, fullTrace]⟩, fun _ => ?_⟩
    exact ⟨backends, repo0, repoInit0, repoOpen0, repoIdx, rawList, pathList,
      rfl, h2, h3, h4, h5, rfl, h8⟩

/-- Witness for `driver_step_order`: in the all-success environment the
step trace is the full trace, `backup` is in it, and the `to_indexed_ids`
and `sanitize` successes it implies are exhibited. -/
theorem driver_step_order_witness :
    ∃ backends repo0 repoInit0 repoOpen0 repoIdx rawList pathList,
      (DriverEnv.mk (.ok 1) (fun _ => .ok 2) (fun _ => .ok 3) (fun _ => .ok 4)
        (fun _ => .ok 5) (.ok 6) (.ok 7) (fun _ => .ok 8)
        (fun _ _ _ => .ok 9)).backendsRes = .ok backends ∧
      (fun _ => (.ok 2 : Except DrvErr Nat)) backends = .ok repo0 ∧
      (fun _ => (.ok 3 : Except DrvErr Nat)) repo0 = .ok repoInit0 ∧
      (fun _ => (.ok 4 : Except DrvErr Nat)) repoInit0 = .ok repoOpen0 ∧
      (fun _ => (.ok 5 : Except DrvErr Nat)) repoOpen0 = .ok repoIdx ∧
      (DriverEnv.mk (.ok 1) (fun _ => .ok 2) (fun _ => .ok 3) (fun _ => .ok 4)
        (fun _ => .ok 5) (.ok 6) (.ok 7) (fun _ => .ok 8)
        (fun _ _ _ => .ok 9)).fromStringRes = .ok rawList ∧
      (fun _ => (.ok 8 : Except DrvErr Nat)) rawList = .ok pathList :=
  (driver_step_order
    ⟨.ok 1, fun _ => .ok 2, fun _ => .ok 3, fun _ => .ok 4, fun _ => .ok 5,
     .ok 6, .ok 7, fun _ => .ok 8, fun _ _ _ => .ok 9⟩).2 (by simp [driverMain])

/-! ### Chunk-store lemmas for the backup/restore round trip -/

/-- `s2` extends `s1`: the store only ever grows by appending. -/
def StoreExt (s1 s2 : Store) : Prop := ∃ r, s2 = s1 ++ r

theorem StoreExt.refl (s : Store) : StoreExt s s := ⟨[], by simp⟩

theorem StoreExt.trans {s1 s2 s3 : Store} (h12 : StoreExt s1 s2)
    (h23 : StoreExt s2 s3) : StoreExt s1 s3 := by
  obtain ⟨r1, rfl⟩ := h12
  obtain ⟨r2, rfl⟩ := h23
  exact ⟨r1 ++ r2, by simp⟩

theorem storePut_ext (s : Store) (c : Bytes) : StoreExt s (storePut s c) := by
  unfold storePut
  split
  · exact StoreExt.refl s
  · exact ⟨[(chunkHash c, c)], rfl⟩

theorem storePutAll_ext : ∀ (cs : List Bytes) (s : Store), StoreExt s (storePutAll s cs) := by
  intro cs
  induction cs with
  | nil => intro s; exact StoreExt.refl s
  | cons c cs ih =>
    intro s
    exact StoreExt.trans (storePut_ext s c) (ih (storePut s c))

theorem storeLookup_mono {s1 s2 : Store} (hext : StoreExt s1 s2) {h : Hash} {d : Bytes}
    (hl : storeLookup s1 h = some d) : storeLookup s2 h = some d := by
  obtain ⟨r, rfl⟩ := hext
  simp only [storeLookup] at hl ⊢
  rw [List.find?_append]
  cases hf : s1.find? (fun e => e.1 == h) with
  | none => rw [hf] at hl; simp at hl
  | some e => rw [hf] at hl; simpa using hl

theorem storeWF_put {s : Store} (hwf : storeWF s) (c : Bytes) : storeWF (storePut s c) := by
  unfold storePut
  split
  · exact hwf
  · intro e he
    rcases List.mem_append.mp he with hmem | hmem
    · exact hwf e hmem
    · rcases List.mem_singleton.mp hmem with rfl
      rfl

theorem storeWF_putAll : ∀ (cs : List Bytes) (s : Store), storeWF s →
    storeWF (storePutAll s cs) := by
  intro cs
  induction cs with
  | nil => intro s hwf; exact hwf
  | cons c cs ih => intro s hwf; exact ih (storePut s c) (storeWF_put hwf c)

theorem storePut_has (s : Store) (c : Bytes) :
    (storeLookup (storePut s c) (chunkHash c)).isSome := by
  unfold storePut
  split
  · assumption
  · rename_i hnone
    simp only [storeLookup, List.find?_append]
    cases hf : s.find? (fun e => e.1 == chunkHash c) with
    | none => simp
    | some e => simp

theorem has_mono {s1 s2 : Store} (hext : StoreExt s1 s2) {h : Hash}
    (hl : (storeLookup s1 h).isSome) : (storeLookup s2 h).isSome := by
  obtain ⟨d, hd⟩ := Option.isSome_iff_exists.mp hl
  rw [storeLookup_mono hext hd]
  rfl

theorem storePutAll_has : ∀ (cs : List Bytes) (s : Store) (c : Bytes), c ∈ cs →
    (storeLookup (storePutAll s cs) (chunkHash c)).isSome := by
  intro cs
  induction cs with
  | nil => intro s c hc; simp at hc
  | cons c0 cs ih =>
    intro s c hc
    rcases List.mem_cons.mp hc with rfl | hmem
    · exact has_mono (storePutAll_ext cs (storePut s c)) (storePut_has s c)
    · exact ih (storePut s c0) c hmem

theorem storeLookup_wf_eq {s : Store} (hwf : storeWF s) {c d : Bytes}
    (hl : storeLookup s (chunkHash c) = some d) : d = c := by
  simp only [storeLookup] at hl
  cases hf : s.find? (fun e => e.1 == chunkHash c) with
  | none => rw [hf] at hl; simp at hl
  | some e =>
    rw [hf] at hl
    simp at hl
    have hpe := List.find?_some hf
    have hmem : e ∈ s := List.mem_of_find?_eq_some hf
    have hkey : e.1 = chunkHash c := by simpa using hpe
    have hwfe : e.1 = chunkHash e.2 := hwf e hmem
    have : chunkHash e.2 = chunkHash c := hwfe ▸ hkey
    have he2 : e.2 = c := chunkHash_injective e.2 c this
    exact hl ▸ he2

theorem fetchAll_hashes {s : Store} (hwf : storeWF s) :
    ∀ (cs : List Bytes), (∀ c ∈ cs, (storeLookup s (chunkHash c)).isSome) →
    fetchAll s (cs.map chunkHash) = some cs := by
  intro cs
  induction cs with
  | nil => intro _; rfl
  | cons c cs ih =>
    intro hall
    have hc := hall c (List.mem_cons_self c cs)
    obtain ⟨d, hd⟩ := Option.isSome_iff_exists.mp hc
    have hdc : d = c := storeLookup_wf_eq hwf hd
    simp only [List.map_cons, fetchAll, hd,
      ih (fun c2 h2 => hall c2 (List.mem_cons_of_mem c h2)), hdc]

theorem fetchAll_mono {s1 s2 : Store} (hext : StoreExt s1 s2) :
    ∀ (hs : List Hash) (ds : List Bytes), fetchAll s1 hs = some ds →
    fetchAll s2 hs = some ds := by
  intro hs
  induction hs with
  | nil =>
    intro ds hf
    simp only [fetchAll] at hf ⊢
    exact hf
  | cons h hs ih =>
    intro ds hf
    simp only [fetchAll] at hf ⊢
    cases hl : storeLookup s1 h with
    | none => rw [hl] at hf; simp at hf
    | some d =>
      rw [hl] at hf
      cases hrest : fetchAll s1 hs with
      | none => rw [hrest] at hf; simp at hf
      | some ds1 =>
        rw [hrest] at hf
        rw [storeLookup_mono hext hl, ih ds1 hrest]
        exact hf

mutual

theorem restoreNode_mono : ∀ (t : TreeNode) (s1 s2 : Store), StoreExt s1 s2 →
    ∀ f, restoreNode s1 t = some f → restoreNode s2 t = some f
  | .fileEntry hs => by
    intro s1 s2 hext f hr
    simp only [restoreNode] at hr ⊢
    cases hf : fetchAll s1 hs with
    | none => rw [hf] at hr; simp at hr
    | some ds =>
      rw [hf] at hr
      rw [fetchAll_mono hext hs ds hf]
      exact hr
  | .dirEntry es => by
    intro s1 s2 hext f hr
    simp only [restoreNode] at hr ⊢
    cases he : restoreEntries s1 es with
    | none => rw [he] at hr; simp at hr
    | some fes =>
      rw [he] at hr
      rw [restoreEntries_mono es s1 s2 hext fes he]
      exact hr

theorem restoreEntries_mono : ∀ (es : TreeEntries) (s1 s2 : Store), StoreExt s1 s2 →
    ∀ fes, restoreEntries s1 es = some fes → restoreEntries s2 es = some fes
  | .nil => by
    intro s1 s2 hext fes hr
    simpa [restoreEntries] using hr
  | .cons n t rest => by
    intro s1 s2 hext fes hr
    simp only [restoreEntries] at hr ⊢
    cases ht : restoreNode s1 t with
    | none => rw [ht] at hr; simp at hr
    | some f =>
      rw [ht] at hr
      cases hrest : restoreEntries s1 rest with
      | none => rw [hrest] at hr; simp at hr
      | some fs =>
        rw [hrest] at hr
        rw [restoreNode_mono t s1 s2 hext f ht, restoreEntries_mono rest s1 s2 hext fs hrest]
        exact hr

end

mutual

theorem backupNode_ok : ∀ (fs : FSNode) (s : Store), storeWF s →
    storeWF (backupNode fs s).2 ∧ StoreExt s (backupNode fs s).2 ∧
    restoreNode (backupNode fs s).2 (backupNode fs s).1 = some fs
  | .file c => by
    intro s hwf
    have hwf2 := storeWF_putAll (chunkBytes c) s hwf
    refine ⟨by simpa [backupNode] using hwf2,
      by simpa [backupNode] using storePutAll_ext (chunkBytes c) s, ?_⟩
    simp only [backupNode, restoreNode]
    rw [fetchAll_hashes hwf2 (chunkBytes c)
      (fun c2 h2 => storePutAll_has (chunkBytes c) s c2 h2)]
    simp [chunkBytes_flatten]
  | .dir es => by
    intro s hwf
    obtain ⟨hwf2, hext2, hres2⟩ := backupEntries_ok es s hwf
    exact ⟨hwf2, hext2, by simp [backupNode, restoreNode, hres2]⟩

theorem backupEntries_ok : ∀ (es : FSEntries) (s : Store), storeWF s →
    storeWF (backupEntries es s).2 ∧ StoreExt s (backupEntries es s).2 ∧
    restoreEntries (backupEntries es s).2 (backupEntries es s).1 = some es
  | .nil => by
    intro s hwf
    exact ⟨hwf, StoreExt.refl s, by simp [backupEntries, restoreEntries]⟩
  | .cons n fsn rest => by
    intro s hwf
    obtain ⟨hwf1, hext1, hres1⟩ := backupNode_ok fsn s hwf
    obtain ⟨hwf2, hext2, hres2⟩ := backupEntries_ok rest (backupNode fsn s).2 hwf1
    refine ⟨hwf2, StoreExt.trans hext1 hext2, ?_⟩
    have hres1' := restoreNode_mono (backupNode fsn s).1 _ _ hext2 fsn hres1
    simp [backupEntries, restoreEntries, hres1', hres2]

end

/-- **C1.** For every successful `backup` run over a forest (the contents of
the sanitized input path list) and any well-formed starting chunk store, the
returned snapshot's root tree, when fully walked against the store the run
produced, reconstructs a file set byte-identical to the input: restore of
the root tree yields exactly the input forest. -/
theorem backup_restore_roundtrip (roots : FSEntries) (s : Store) (hwf : storeWF s) :
    restoreNode (backupRun roots s).2 (backupRun roots s).1 = some (.dir roots) := by
  obtain ⟨hwf2, hext2, hres2⟩ := backupEntries_ok roots s hwf
  simp [backupRun, restoreNode, hres2]

/-- Witness for `backup_restore_roundtrip`: backing up a single file with
contents `[1, 2, 3]` from the empty store and walking the returned root
tree restores exactly that file. -/
theorem backup_restore_roundtrip_witness :
    restoreNode (backupRun (.cons "f" (.file [1, 2, 3]) .nil) []).2
      (backupRun (.cons "f" (.file [1, 2, 3]) .nil) []).1 =
      some (.dir (.cons "f" (.file [1, 2, 3]) .nil)) :=
  backup_restore_roundtrip (.cons "f" (.file [1, 2, 3]) .nil) []
    (fun e he => absurd he (List.not_mem_nil e))

end Backrest
